import Mathlib

/-!
Shallow embedding of `src/index.js` (cbarrick/CircularBuffer), first variant
(the one using the one-byte padding convention, whose line numbers the claims
cite).  Bytes are `Nat` values (< 256 in practice), JS strings are lists of
UTF-16 code units, and `Buffer` values are lists of bytes.  Node's
`Buffer.prototype.toString('utf8')` of the era (and of the repository's own
test expectations) decodes up to the last complete character boundary and
drops a trailing incomplete multi-byte sequence; invalid bytes decode to
U+FFFD.  Node's `Buffer.prototype.copy` silently clamps out-of-range source
and target ranges.  Both platform behaviours are modelled below.
-/

namespace CircularBuffer

/-- Encodings after normalization: `utf8` text decoding, or `raw`
(the JS value `null`, which `'buffer'` is normalized to). -/
inductive Enc where
  | utf8
  | raw
deriving DecidableEq, Repr

/-- Encoding names as they appear as string arguments in JS calls. -/
inductive EncName where
  | utf8
  | buffer
deriving DecidableEq, Repr

/-- A JS value returned by `peek`/`read`/`slice`: a string (UTF-16 code
units) or a `Buffer` (bytes). -/
inductive JSVal where
  | str (units : List Nat)
  | buf (bytes : List Nat)
deriving DecidableEq, Repr

/-- JS `.length` of a returned value: number of UTF-16 code units for a
string, number of bytes for a buffer.  This is what `read` adds to `head`. -/
def JSVal.jsLength : JSVal → Nat
  | .str u => u.length
  | .buf b => b.length

/-- JS argument values that can land in a numeric-index parameter slot of
`copy`/`slice` (plus strings for the argument-sniffing dispatch). -/
inductive JArg where
  | undef
  | null
  | nan
  | posInf
  | negInf
  | int (z : Int)
  | str (e : EncName)
deriving DecidableEq, Repr

/-- JS argument values for an encoding parameter slot. -/
inductive EArg where
  | undef
  | null
  | name (e : EncName)
deriving DecidableEq, Repr

/-- UTF-8 continuation byte test. -/
def isCont (b : Nat) : Bool := decide (0x80 ≤ b ∧ b < 0xC0)

/-- Outcome of examining one lead byte of a UTF-8 window: either emit a
code point after consuming `k` bytes, or stop at a trailing incomplete
multi-byte sequence (consuming nothing). -/
inductive StepR where
  | emit (cp : Nat) (k : Nat)
  | stop
deriving DecidableEq, Repr

/-- One decoding step for a lead byte `b` followed by `rest`: ASCII and
stray/invalid bytes consume one byte (invalid ones as U+FFFD); a lead byte
whose continuation bytes are all present consumes the whole sequence; a
lead byte whose continuations are present-but-wrong resynchronizes (U+FFFD
for the lead alone); a lead byte that merely ran out of bytes stops. -/
def utf8Step (b : Nat) (rest : List Nat) : StepR :=
  if b < 0x80 then .emit b 1
  else if b < 0xC0 then .emit 0xFFFD 1
  else if b < 0xE0 then
    if rest.length < 1 then .stop
    else if isCont (rest.getD 0 0) = false then .emit 0xFFFD 1
    else .emit ((b - 0xC0) * 64 + (rest.getD 0 0 - 0x80)) 2
  else if b < 0xF0 then
    if rest.length < 1 then .stop
    else if isCont (rest.getD 0 0) = false then .emit 0xFFFD 1
    else if rest.length < 2 then .stop
    else if isCont (rest.getD 1 0) = false then .emit 0xFFFD 1
    else .emit ((b - 0xE0) * 4096 + (rest.getD 0 0 - 0x80) * 64 + (rest.getD 1 0 - 0x80)) 3
  else if b < 0xF8 then
    if rest.length < 1 then .stop
    else if isCont (rest.getD 0 0) = false then .emit 0xFFFD 1
    else if rest.length < 2 then .stop
    else if isCont (rest.getD 1 0) = false then .emit 0xFFFD 1
    else if rest.length < 3 then .stop
    else if isCont (rest.getD 2 0) = false then .emit 0xFFFD 1
    else .emit ((b - 0xF0) * 262144 + (rest.getD 0 0 - 0x80) * 4096 +
      (rest.getD 1 0 - 0x80) * 64 + (rest.getD 2 0 - 0x80)) 4
  else .emit 0xFFFD 1

/-- Driver of the decoder: every `emit` consumes at least one byte, so fuel
equal to the byte count always suffices. -/
def utf8Run : Nat → List Nat → List Nat × Nat
  | 0, _ => ([], 0)
  | _ + 1, [] => ([], 0)
  | fuel + 1, b :: rest =>
    match utf8Step b rest with
    | .stop => ([], 0)
    | .emit cp k =>
      let p := utf8Run fuel ((b :: rest).drop k)
      (cp :: p.1, p.2 + k)

/-- Modelled from the spec: Node `Buffer#toString('utf8')` of the era the
repository targets (its tests assert this behaviour).  Returns the decoded
code points together with the number of bytes consumed; a trailing
incomplete multi-byte sequence is withheld (not consumed, not decoded);
invalid bytes decode to U+FFFD and resynchronize. -/
def utf8DC (bs : List Nat) : List Nat × Nat := utf8Run bs.length bs

/-- UTF-16 code units of a code point. -/
def utf16units (cp : Nat) : List Nat :=
  if cp < 0x10000 then [cp]
  else [0xD800 + (cp - 0x10000) / 0x400, 0xDC00 + (cp - 0x10000) % 0x400]

/-- JS string produced by decoding bytes as UTF-8 (Node `toString('utf8')`). -/
def utf8ToUnits (bs : List Nat) : List Nat :=
  ((utf8DC bs).1.map utf16units).flatten

/-- UTF-8 encoding of one code point. -/
def utf8EncodeCp (cp : Nat) : List Nat :=
  if cp < 0x80 then [cp]
  else if cp < 0x800 then [0xC0 + cp / 64, 0x80 + cp % 64]
  else if cp < 0x10000 then
    [0xE0 + cp / 4096, 0x80 + cp / 64 % 64, 0x80 + cp % 64]
  else
    [0xF0 + cp / 262144, 0x80 + cp / 4096 % 64, 0x80 + cp / 64 % 64, 0x80 + cp % 64]

/-- UTF-8 encoding of a JS string (UTF-16 units; surrogate pairs combined),
modelling `new Buffer(string, 'utf8')`. -/
def utf8EncodeUnits : List Nat → List Nat
  | [] => []
  | [u] => utf8EncodeCp u
  | u :: u2 :: r =>
    if 0xD800 ≤ u ∧ u < 0xDC00 ∧ 0xDC00 ≤ u2 ∧ u2 < 0xE000 then
      utf8EncodeCp (0x10000 + (u - 0xD800) * 0x400 + (u2 - 0xDC00)) ++ utf8EncodeUnits r
    else utf8EncodeCp u ++ utf8EncodeUnits (u2 :: r)

/-- Node `Buffer#copy(target, tStart, sStart, sEnd)`: writes
`src[sStart..sEnd)` into `tgt` starting at `tStart`, clamping the source end
to the source length and the count to the space left in the target. -/
def bufCopy (src tgt : List Nat) (tStart sStart sEnd : Nat) : List Nat :=
  let sEnd' := min sEnd src.length
  let cnt := min (sEnd' - sStart) (tgt.length - tStart)
  (List.range tgt.length).map fun i =>
    if tStart ≤ i ∧ i < tStart + cnt then src.getD (sStart + (i - tStart)) 0
    else tgt.getD i 0

/-- The closure state of one `CircularBuffer` instance (first variant of
`src/index.js`): the padded backing buffer, the two cursors, and the
constructor options `opts.size` and `opts.encoding`. -/
structure CB where
  storage : List Nat
  head : Nat
  tail : Nat
  optsSize : Nat
  optsEncoding : Enc
deriving DecidableEq, Repr

/-- `CircularBuffer#length` getter: stored byte count. -/
def CB.len (s : CB) : Nat :=
  if s.tail < s.head then s.storage.length - s.head + s.tail
  else s.tail - s.head

/-- `CircularBuffer#size` getter: allocated bytes minus the padding byte. -/
def CB.size (s : CB) : Nat := s.storage.length - 1

/-- Logical byte at offset `i` from `head` (raw storage index modulo the
allocated length). -/
def CB.byteAt (s : CB) (i : Nat) : Nat :=
  s.storage.getD ((s.head + i) % s.storage.length) 0

/-- The stored content, as the list of logical bytes from `head`. -/
def CB.content (s : CB) : List Nat :=
  (List.range s.len).map s.byteAt

/-- Well-formedness of a state: both cursors are in-range storage indices. -/
def CB.WF (s : CB) : Prop :=
  s.head < s.storage.length ∧ s.tail < s.storage.length

instance (s : CB) : Decidable s.WF := by
  unfold CB.WF
  infer_instance

/-- The `inBounds(n)` helper (src/index.js lines 61-63): finite, `0 ≤ n`,
and `n < length`.  On non-number JS values `Number.isFinite` is `false`. -/
def CB.inBoundsA (s : CB) : JArg → Bool
  | .int z => decide (0 ≤ z ∧ z < (s.len : Int))
  | _ => false

/-- `inBounds(x) ? x : dflt` applied to an index argument. -/
def CB.defIdx (s : CB) (a : JArg) (dflt : Nat) : Nat :=
  match a with
  | .int z => if 0 ≤ z ∧ z < (s.len : Int) then z.toNat else dflt
  | _ => dflt

/-- `CircularBuffer#copy` (src/index.js lines 196-214).  Pure in the buffer
state; returns the updated target and the JS return value
`sourceEnd - sourceStart`. -/
def CB.copyA (s : CB) (target : List Nat) (tsA ssA seA : JArg) : List Nat × Int :=
  let ts := s.defIdx tsA 0
  let ss := s.defIdx ssA 0
  let se := s.defIdx seA s.len
  if ss = se then (target, 0)
  else
    let start := (s.head + ss) % s.storage.length
    let e := (s.head + se) % s.storage.length
    if s.tail < s.head then
      let avail := s.head - s.tail
      let t1 := bufCopy s.storage target ts start (start + avail)
      let t2 := bufCopy s.storage t1 (ts + avail) 0 e
      (t2, (se : Int) - (ss : Int))
    else
      (bufCopy s.storage target ts start e, (se : Int) - (ss : Int))

/-- The byte window assembled by `peek` for an already-clamped count `n`
(src/index.js lines 145-153): `buffer.slice`/`Buffer.concat` on the raw
storage around the wrap point. -/
def CB.peekData (s : CB) (n : Nat) : List Nat :=
  if (s.head + n) % s.storage.length < s.head then
    (s.storage.drop s.head ++ s.storage.take ((s.head + n) % s.storage.length)).take n
  else
    ((s.storage.take ((s.head + n) % s.storage.length)).drop s.head).take n

/-- `CircularBuffer#peek` after argument normalization: `n = none` means the
JS default `Infinity` (clamped to `length`), and the encoding is already
resolved.  `peek` never writes `head`/`tail`/`buffer`, so it is a pure
function of the state. -/
def CB.peekCore (s : CB) (n : Option Nat) (enc : Enc) : JSVal :=
  let n' := match n with
    | none => s.len
    | some k => min k s.len
  let data := s.peekData n'
  match enc with
  | .raw => .buf data
  | .utf8 => .str (utf8ToUnits data)

/-- Resolution of an encoding argument (src/index.js lines 138-139):
`undefined` takes the constructor default; `null` and `'buffer'` mean raw. -/
def CB.resolveEnc (s : CB) : EArg → Enc
  | .undef => s.optsEncoding
  | .null => .raw
  | .name .utf8 => .utf8
  | .name .buffer => .raw

/-- First argument of `peek`, modelled over the value forms the spec
exercises: omitted, a nonnegative count, or an encoding name string. -/
inductive PArg where
  | undef
  | num (k : Nat)
  | str (e : EncName)
deriving DecidableEq, Repr

/-- `CircularBuffer#peek` entry point with JS-style dispatch
(src/index.js lines 133-141): a string first argument is treated as the
encoding and `n` is left `undefined`. -/
def CB.peekArgs (s : CB) (a0 : PArg) (a1 : EArg) : JSVal :=
  match a0 with
  | .str e => s.peekCore none (s.resolveEnc (.name e))
  | .undef => s.peekCore none (s.resolveEnc a1)
  | .num k => s.peekCore (some k) (s.resolveEnc a1)

/-- `CircularBuffer#read` (src/index.js lines 173-178): peek, then advance
`head` by the JS `.length` of the returned value, modulo the storage size. -/
def CB.readCore (s : CB) (n : Option Nat) (enc : Enc) : JSVal × CB :=
  let d := s.peekCore n enc
  (d, { s with head := (s.head + d.jsLength) % s.storage.length })

/-- `setBuffer(newSize)` (src/index.js lines 70-78): allocate `newSize + 1`
zeroed bytes, `self.copy(newBuffer)` with the remaining arguments
`undefined`, install the new buffer, set `head = 0`, and then
`tail = self.length || 0` — note that this getter call reads the *already
updated* `buffer` and `head` together with the still-old `tail`, so it
evaluates to the old raw `tail` value. -/
def CB.setBuffer (s : CB) (newSize : Nat) : CB :=
  let newStorage := (s.copyA (List.replicate (newSize + 1) 0) .undef .undef .undef).1
  let mid : CB := { s with storage := newStorage, head := 0 }
  { mid with tail := mid.len }

/-- `CircularBuffer#expand` (src/index.js lines 261-263). -/
def CB.expand (s : CB) : CB := s.setBuffer (s.size * 2)

/-- The `shrink` sizing loop: `newSize = opts.size; while (newSize < length)
newSize += opts.size`.  The fuel bounds the iteration count; `len + 1` steps
always suffice when `opts.size ≥ 1` (every constructed buffer). -/
def shrinkGo (base : Nat) : Nat → Nat → Nat → Nat
  | 0, cur, _ => cur
  | fuel + 1, cur, l => if cur < l then shrinkGo base fuel (cur + base) l else cur

/-- `CircularBuffer#shrink` (src/index.js lines 272-276). -/
def CB.shrink (s : CB) : CB :=
  s.setBuffer (shrinkGo s.optsSize (s.len + 1) s.optsSize s.len)

/-- Bytes of a chunk argument: a string is encoded (the claims' scenarios
all use the UTF-8 default path of `new Buffer(chunk, encoding)`), a buffer
is taken as-is. -/
def chunkBytes : JSVal → List Nat
  | .str u => utf8EncodeUnits u
  | .buf b => b

/-- The recursive expand-and-retry body of `CircularBuffer#write`
(src/index.js lines 289-308), with fuel for the recursion through
`expand`.  `none` means the fuel ran out (never the case below). -/
def CB.writeGo : Nat → CB → List Nat → Option CB
  | 0, _, _ => none
  | fuel + 1, s, bytes =>
    if s.len + bytes.length ≥ s.storage.length then
      CB.writeGo fuel s.expand bytes
    else
      let tmp := s.storage.length - s.tail
      let st1 := bufCopy bytes s.storage s.tail 0 tmp
      let st2 := if bytes.length > tmp then bufCopy bytes st1 0 tmp bytes.length else st1
      some { s with storage := st2, tail := (s.tail + bytes.length) % s.storage.length }

/-- `CircularBuffer#write(chunk)` at its default-encoding call form (the one
used throughout the spec's scenarios). -/
def CB.write (s : CB) (chunk : JSVal) : Option CB :=
  CB.writeGo (s.storage.length + (chunkBytes chunk).length + 2) s (chunkBytes chunk)

/-- The recursive expand-and-retry body of `CircularBuffer#writeBack`
(src/index.js lines 321-341): move `head` backwards modulo the storage
length, then copy the chunk there with the same two-piece `memcpy`. -/
def CB.writeBackGo : Nat → CB → List Nat → Option CB
  | 0, _, _ => none
  | fuel + 1, s, bytes =>
    if s.len + bytes.length ≥ s.storage.length then
      CB.writeBackGo fuel s.expand bytes
    else
      let h := (s.head + s.storage.length - bytes.length) % s.storage.length
      let tmp := s.storage.length - h
      let st1 := bufCopy bytes s.storage h 0 tmp
      let st2 := if bytes.length > tmp then bufCopy bytes st1 0 tmp bytes.length else st1
      some { s with storage := st2, head := h }

/-- `CircularBuffer#writeBack(chunk)` at its default-encoding call form. -/
def CB.writeBack (s : CB) (chunk : JSVal) : Option CB :=
  CB.writeBackGo (s.storage.length + (chunkBytes chunk).length + 2) s (chunkBytes chunk)

/-- `CircularBuffer#slice` (src/index.js lines 232-253): argument sniffing
(a string in the first or second slot is the encoding), `inBounds`
defaulting, then `read(start)` / `peek(end - start)` / `writeBack(tmp)`.
The result pairs the returned value with the state after those three
mutating calls. -/
def CB.sliceArgs (s : CB) (a0 a1 : JArg) (a2 : EArg) : Option (JSVal × CB) :=
  let disp : JArg × JArg × EArg :=
    match a0, a1 with
    | .str e, _ => (.undef, .undef, .name e)
    | _, .str e => (a0, .undef, .name e)
    | _, _ => (a0, a1, a2)
  let st := s.defIdx disp.1 0
  let en := s.defIdx disp.2.1 s.len
  let enc := s.resolveEnc disp.2.2
  let newSize := en - st
  let r := s.readCore (some st) enc
  let data := r.2.peekCore (some newSize) enc
  match r.2.writeBack r.1 with
  | none => none
  | some s2 => some (data, s2)

/-- `new CircularBuffer(opts)` (src/index.js lines 38-54): the initial
`setBuffer(opts.size)` has no previous buffer to copy, leaving a zeroed
buffer of `size + 1` bytes with both cursors at 0. -/
def CB.new (size : Nat) (enc : Enc) : CB :=
  ⟨List.replicate (size + 1) 0, 0, 0, size, enc⟩

/-- A numeric-index argument that the spec calls invalid: not a finite
number, or negative, or not less than `length`. -/
def CB.numBad (s : CB) : JArg → Prop
  | .nan => True
  | .posInf => True
  | .negInf => True
  | .int z => z < 0 ∨ (s.len : Int) ≤ z
  | _ => False

/-- A byte list that is a (possibly empty) proper prefix of a single valid
multi-byte UTF-8 sequence: exactly the shapes the decoder may withhold at
the end of a window. -/
def isIncompleteTail : List Nat → Bool
  | [] => true
  | [b] => decide (0xC0 ≤ b ∧ b < 0xF8)
  | [b, c1] => decide (0xE0 ≤ b ∧ b < 0xF8) && isCont c1
  | [b, c1, c2] => decide (0xF0 ≤ b ∧ b < 0xF8) && isCont c1 && isCont c2
  | _ => false

/-- The multibyte-safety scenario state: a size-5 utf8 buffer after
`write('€')` (3 bytes) and `write('¢')` (2 bytes). -/
def mbState : CB :=
  (((CB.new 5 .utf8).write (.str [0x20AC])).bind fun s =>
    s.write (.str [0xA2])).getD (CB.new 5 .utf8)

/-- A wrapped state reached through the public interface: size-6 buffer
after `write('abcde')`, `read(4)`, `write('fghi')`; its physical storage is
`[h i c d e f g]` with `head = 4`, `tail = 2`, content `"efghi"`. -/
def c3State : CB :=
  (((CB.new 6 .utf8).write (.str [97, 98, 99, 100, 101])).bind fun s =>
    (s.readCore (some 4) .utf8).2.write (.str [102, 103, 104, 105])).getD (CB.new 6 .utf8)

/-- The read-then-expand sequence of the repository's own test suite:
size-2 raw buffer, `write([1,2])`, `read(1)`, `write([3,4])`. -/
def c5Final : Option CB :=
  ((CB.new 2 .raw).write (.buf [1, 2])).bind fun s =>
    (s.readCore (some 1) .raw).2.write (.buf [3, 4])

/-- A non-wrapped state with `head ≠ 0`: size-6 buffer after
`write('abcdef')` and `read(3)`; content `"def"`, `head = 3`, `tail = 6`. -/
def c6State : CB :=
  (((CB.new 6 .utf8).write (.str [97, 98, 99, 100, 101, 102])).map fun s =>
    (s.readCore (some 3) .utf8).2).getD (CB.new 6 .utf8)

/-- Size-5 buffer after `write('abc')` and `read(1)`: content `"bc"`,
`head = 1`, `tail = 3`. -/
def c7State : CB :=
  (((CB.new 5 .utf8).write (.str [97, 98, 99])).map fun s =>
    (s.readCore (some 1) .utf8).2).getD (CB.new 5 .utf8)

/-- The spec's shrink scenario: base size 5, `write('hello')`,
`write(' ')`, `write('world')` — 11 bytes total, doubling twice to 20. -/
def c7Big : CB :=
  ((((CB.new 5 .utf8).write (.str [104, 101, 108, 108, 111])).bind fun s =>
    s.write (.str [32])).bind fun s =>
    s.write (.str [119, 111, 114, 108, 100])).getD (CB.new 5 .utf8)

/-- Size-11 buffer holding `"hello world"`. -/
def hwState : CB :=
  ((CB.new 11 .utf8).write
    (.str [104, 101, 108, 108, 111, 32, 119, 111, 114, 108, 100])).getD (CB.new 11 .utf8)

/-! ### Helper lemmas -/

theorem CB.len_le (s : CB) (hh : s.head < s.storage.length)
    (ht : s.tail < s.storage.length) : s.len ≤ s.storage.length := by
  unfold CB.len
  split <;> omega

/-- Without physical wraparound the `peek` window is storage read off
directly behind `head`. -/
theorem CB.peekData_nowrap (s : CB) (m : Nat) (hcase : s.head + m < s.storage.length) :
    s.peekData m = (List.range m).map s.byteAt := by
  rw [CB.peekData]
  have he : (s.head + m) % s.storage.length = s.head + m := Nat.mod_eq_of_lt hcase
  rw [he, if_neg (by omega)]
  apply List.ext_getElem
  · simp only [List.length_take, List.length_drop, List.length_take, List.length_map,
      List.length_range]
    omega
  · intro i h1 h2
    simp only [List.length_take, List.length_drop, List.length_map, List.length_range] at h1 h2
    have hi : i < m := h2
    have hib : s.head + i < s.storage.length := by omega
    rw [List.getElem_take, List.getElem_drop, List.getElem_take, List.getElem_map,
      List.getElem_range, CB.byteAt, Nat.mod_eq_of_lt hib, List.getD_eq_getElem _ _ hib]

/-- The byte window `peek` assembles for a clamped count `m ≤ length` is
exactly the first `m` logical content bytes, wrap or no wrap. -/
theorem CB.peekData_eq_take (s : CB) (hh : s.head < s.storage.length)
    (ht : s.tail < s.storage.length) (m : Nat) (hm : m ≤ s.len) :
    s.peekData m = s.content.take m := by
  have hcontent : s.content.take m = (List.range m).map s.byteAt := by
    rw [CB.content, ← List.map_take, List.take_range, Nat.min_eq_left hm]
  rw [hcontent]
  by_cases htlh : s.tail < s.head
  · have hm' : m ≤ s.storage.length - s.head + s.tail := by
      have hd : s.len = s.storage.length - s.head + s.tail := by simp [CB.len, htlh]
      omega
    by_cases hcase : s.head + m < s.storage.length
    · exact s.peekData_nowrap m hcase
    · rw [CB.peekData]
      have hm2 : s.head + m < 2 * s.storage.length := by omega
      have he : (s.head + m) % s.storage.length = s.head + m - s.storage.length := by
        rw [Nat.mod_eq_sub_mod (by omega), Nat.mod_eq_of_lt (by omega)]
      rw [he, if_pos (by omega)]
      apply List.ext_getElem
      · simp only [List.length_take, List.length_append, List.length_drop, List.length_map,
          List.length_range]
        omega
      · intro i h1 h2
        simp only [List.length_take, List.length_append, List.length_drop, List.length_map,
          List.length_range] at h1 h2
        have hi : i < m := h2
        rw [List.getElem_take, List.getElem_map, List.getElem_range, CB.byteAt]
        by_cases hil : i < s.storage.length - s.head
        · have hib : s.head + i < s.storage.length := by omega
          rw [List.getElem_append_left (by simp; omega), List.getElem_drop,
            Nat.mod_eq_of_lt hib, List.getD_eq_getElem _ _ hib]
        · have hlt2 : s.head + i - s.storage.length < s.storage.length := by omega
          have hmod : (s.head + i) % s.storage.length = s.head + i - s.storage.length := by
            rw [Nat.mod_eq_sub_mod (by omega), Nat.mod_eq_of_lt (by omega)]
          rw [List.getElem_append_right (by simp; omega), List.getElem_take]
          simp only [List.length_drop]
          rw [hmod, List.getD_eq_getElem _ _ hlt2]
          congr 1
          omega
  · have hm' : m ≤ s.tail - s.head := by
      have hd : s.len = s.tail - s.head := by simp [CB.len, htlh]
      omega
    exact s.peekData_nowrap m (by omega)

theorem bool_true_of_not_false {a : Bool} (h : ¬a = false) : a = true := by
  cases a
  · exact absurd rfl h
  · rfl

/-- Full case analysis of one decoding step: it either stops at a trailing
incomplete multi-byte sequence, or emits one code point consuming between 1
byte and the bytes present, with the outcome unaffected by any bytes
appended after the window. -/
theorem utf8Step_main (b : Nat) (rest : List Nat) :
    (utf8Step b rest = .stop ∧ isIncompleteTail (b :: rest) = true) ∨
    (∃ cp k, utf8Step b rest = .emit cp k ∧ 1 ≤ k ∧ k ≤ 1 + rest.length ∧
      ∀ inc : List Nat, utf8Step b (rest ++ inc) = .emit cp k) := by
  by_cases h1 : b < 0x80
  · refine Or.inr ⟨b, 1, ?_, by omega, by omega, fun inc => ?_⟩
    · unfold utf8Step
      rw [if_pos h1]
    · unfold utf8Step
      rw [if_pos h1]
  by_cases h2 : b < 0xC0
  · refine Or.inr ⟨0xFFFD, 1, ?_, by omega, by omega, fun inc => ?_⟩
    · unfold utf8Step
      rw [if_neg h1, if_pos h2]
    · unfold utf8Step
      rw [if_neg h1, if_pos h2]
  by_cases h3 : b < 0xE0
  · by_cases hL1 : rest.length < 1
    · refine Or.inl ⟨?_, ?_⟩
      · unfold utf8Step
        rw [if_neg h1, if_neg h2, if_pos h3, if_pos hL1]
      · obtain rfl : rest = [] := List.length_eq_zero.mp (by omega)
        simp only [isIncompleteTail, decide_eq_true_eq]
        omega
    · by_cases hc0 : isCont (rest.getD 0 0) = false
      · refine Or.inr ⟨0xFFFD, 1, ?_, by omega, by omega, fun inc => ?_⟩
        · unfold utf8Step
          rw [if_neg h1, if_neg h2, if_pos h3, if_neg hL1, if_pos hc0]
        · unfold utf8Step
          rw [if_neg h1, if_neg h2, if_pos h3,
            if_neg (show ¬(rest ++ inc).length < 1 by simp only [List.length_append]; omega),
            List.getD_append _ _ _ _ (by omega), if_pos hc0]
      · refine Or.inr ⟨(b - 0xC0) * 64 + (rest.getD 0 0 - 0x80), 2, ?_, by omega,
          by omega, fun inc => ?_⟩
        · unfold utf8Step
          rw [if_neg h1, if_neg h2, if_pos h3, if_neg hL1, if_neg hc0]
        · unfold utf8Step
          rw [if_neg h1, if_neg h2, if_pos h3,
            if_neg (show ¬(rest ++ inc).length < 1 by simp only [List.length_append]; omega),
            List.getD_append _ _ _ _ (by omega), if_neg hc0]
  by_cases h4 : b < 0xF0
  · by_cases hL1 : rest.length < 1
    · refine Or.inl ⟨?_, ?_⟩
      · unfold utf8Step
        rw [if_neg h1, if_neg h2, if_neg h3, if_pos h4, if_pos hL1]
      · obtain rfl : rest = [] := List.length_eq_zero.mp (by omega)
        simp only [isIncompleteTail, decide_eq_true_eq]
        omega
    · by_cases hc0 : isCont (rest.getD 0 0) = false
      · refine Or.inr ⟨0xFFFD, 1, ?_, by omega, by omega, fun inc => ?_⟩
        · unfold utf8Step
          rw [if_neg h1, if_neg h2, if_neg h3, if_pos h4, if_neg hL1, if_pos hc0]
        · unfold utf8Step
          rw [if_neg h1, if_neg h2, if_neg h3, if_pos h4,
            if_neg (show ¬(rest ++ inc).length < 1 by simp only [List.length_append]; omega),
            List.getD_append _ _ _ _ (by omega), if_pos hc0]
      · by_cases hL2 : rest.length < 2
        · refine Or.inl ⟨?_, ?_⟩
          · unfold utf8Step
            rw [if_neg h1, if_neg h2, if_neg h3, if_pos h4, if_neg hL1, if_neg hc0, if_pos hL2]
          · obtain ⟨x, rfl⟩ : ∃ x, rest = [x] := by
              rcases rest with _ | ⟨x, _ | ⟨y, t⟩⟩
              · exact absurd (by decide) hL1
              · exact ⟨x, rfl⟩
              · simp only [List.length_cons, List.length_nil] at hL2
                omega
            simp only [isIncompleteTail, List.getD_cons_zero, Bool.and_eq_true,
              decide_eq_true_eq] at hc0 ⊢
            exact ⟨by omega, bool_true_of_not_false hc0⟩
        · by_cases hc1 : isCont (rest.getD 1 0) = false
          · refine Or.inr ⟨0xFFFD, 1, ?_, by omega, by omega, fun inc => ?_⟩
            · unfold utf8Step
              rw [if_neg h1, if_neg h2, if_neg h3, if_pos h4, if_neg hL1, if_neg hc0,
                if_neg hL2, if_pos hc1]
            · unfold utf8Step
              rw [if_neg h1, if_neg h2, if_neg h3, if_pos h4,
                if_neg (show ¬(rest ++ inc).length < 1 by simp only [List.length_append]; omega),
                List.getD_append _ _ _ _ (by omega), if_neg hc0,
                if_neg (show ¬(rest ++ inc).length < 2 by simp only [List.length_append]; omega),
                List.getD_append _ _ _ _ (by omega), if_pos hc1]
          · refine Or.inr ⟨(b - 0xE0) * 4096 + (rest.getD 0 0 - 0x80) * 64 +
              (rest.getD 1 0 - 0x80), 3, ?_, by omega, by omega, fun inc => ?_⟩
            · unfold utf8Step
              rw [if_neg h1, if_neg h2, if_neg h3, if_pos h4, if_neg hL1, if_neg hc0,
                if_neg hL2, if_neg hc1]
            · unfold utf8Step
              rw [if_neg h1, if_neg h2, if_neg h3, if_pos h4,
                if_neg (show ¬(rest ++ inc).length < 1 by simp only [List.length_append]; omega),
                List.getD_append _ _ _ _ (by omega), if_neg hc0,
                if_neg (show ¬(rest ++ inc).length < 2 by simp only [List.length_append]; omega),
                List.getD_append _ _ _ _ (by omega), if_neg hc1]
  by_cases h5 : b < 0xF8
  · by_cases hL1 : rest.length < 1
    · refine Or.inl ⟨?_, ?_⟩
      · unfold utf8Step
        rw [if_neg h1, if_neg h2, if_neg h3, if_neg h4, if_pos h5, if_pos hL1]
      · obtain rfl : rest = [] := List.length_eq_zero.mp (by omega)
        simp only [isIncompleteTail, decide_eq_true_eq]
        omega
    · by_cases hc0 : isCont (rest.getD 0 0) = false
      · refine Or.inr ⟨0xFFFD, 1, ?_, by omega, by omega, fun inc => ?_⟩
        · unfold utf8Step
          rw [if_neg h1, if_neg h2, if_neg h3, if_neg h4, if_pos h5, if_neg hL1, if_pos hc0]
        · unfold utf8Step
          rw [if_neg h1, if_neg h2, if_neg h3, if_neg h4, if_pos h5,
            if_neg (show ¬(rest ++ inc).length < 1 by simp only [List.length_append]; omega),
            List.getD_append _ _ _ _ (by omega), if_pos hc0]
      · by_cases hL2 : rest.length < 2
        · refine Or.inl ⟨?_, ?_⟩
          · unfold utf8Step
            rw [if_neg h1, if_neg h2, if_neg h3, if_neg h4, if_pos h5, if_neg hL1,
              if_neg hc0, if_pos hL2]
          · obtain ⟨x, rfl⟩ : ∃ x, rest = [x] := by
              rcases rest with _ | ⟨x, _ | ⟨y, t⟩⟩
              · exact absurd (by decide) hL1
              · exact ⟨x, rfl⟩
              · simp only [List.length_cons, List.length_nil] at hL2
                omega
            simp only [isIncompleteTail, List.getD_cons_zero, Bool.and_eq_true,
              decide_eq_true_eq] at hc0 ⊢
            exact ⟨by omega, bool_true_of_not_false hc0⟩
        · by_cases hc1 : isCont (rest.getD 1 0) = false
          · refine Or.inr ⟨0xFFFD, 1, ?_, by omega, by omega, fun inc => ?_⟩
            · unfold utf8Step
              rw [if_neg h1, if_neg h2, if_neg h3, if_neg h4, if_pos h5, if_neg hL1,
                if_neg hc0, if_neg hL2, if_pos hc1]
            · unfold utf8Step
              rw [if_neg h1, if_neg h2, if_neg h3, if_neg h4, if_pos h5,
                if_neg (show ¬(rest ++ inc).length < 1 by simp only [List.length_append]; omega),
                List.getD_append _ _ _ _ (by omega), if_neg hc0,
                if_neg (show ¬(rest ++ inc).length < 2 by simp only [List.length_append]; omega),
                List.getD_append _ _ _ _ (by omega), if_pos hc1]
          · by_cases hL3 : rest.length < 3
            · refine Or.inl ⟨?_, ?_⟩
              · unfold utf8Step
                rw [if_neg h1, if_neg h2, if_neg h3, if_neg h4, if_pos h5, if_neg hL1,
                  if_neg hc0, if_neg hL2, if_neg hc1, if_pos hL3]
              · obtain ⟨x, y, rfl⟩ : ∃ x y, rest = [x, y] := by
                  rcases rest with _ | ⟨x, _ | ⟨y, _ | ⟨z, t⟩⟩⟩
                  · exact absurd (by decide) hL1
                  · simp only [List.length_cons, List.length_nil] at hL2
                    omega
                  · exact ⟨x, y, rfl⟩
                  · simp only [List.length_cons, List.length_nil] at hL3
                    omega
                simp only [isIncompleteTail, List.getD_cons_zero, List.getD_cons_succ,
                  Bool.and_eq_true, decide_eq_true_eq] at hc0 hc1 ⊢
                exact ⟨⟨by omega, bool_true_of_not_false hc0⟩, bool_true_of_not_false hc1⟩
            · by_cases hc2 : isCont (rest.getD 2 0) = false
              · refine Or.inr ⟨0xFFFD, 1, ?_, by omega, by omega, fun inc => ?_⟩
                · unfold utf8Step
                  rw [if_neg h1, if_neg h2, if_neg h3, if_neg h4, if_pos h5, if_neg hL1,
                    if_neg hc0, if_neg hL2, if_neg hc1, if_neg hL3, if_pos hc2]
                · unfold utf8Step
                  rw [if_neg h1, if_neg h2, if_neg h3, if_neg h4, if_pos h5,
                    if_neg (show ¬(rest ++ inc).length < 1 by
                      simp only [List.length_append]; omega),
                    List.getD_append _ _ _ _ (by omega), if_neg hc0,
                    if_neg (show ¬(rest ++ inc).length < 2 by
                      simp only [List.length_append]; omega),
                    List.getD_append _ _ _ _ (by omega), if_neg hc1,
                    if_neg (show ¬(rest ++ inc).length < 3 by
                      simp only [List.length_append]; omega),
                    List.getD_append _ _ _ _ (by omega), if_pos hc2]
              · refine Or.inr ⟨(b - 0xF0) * 262144 + (rest.getD 0 0 - 0x80) * 4096 +
                  (rest.getD 1 0 - 0x80) * 64 + (rest.getD 2 0 - 0x80), 4, ?_, by omega,
                  by omega, fun inc => ?_⟩
                · unfold utf8Step
                  rw [if_neg h1, if_neg h2, if_neg h3, if_neg h4, if_pos h5, if_neg hL1,
                    if_neg hc0, if_neg hL2, if_neg hc1, if_neg hL3, if_neg hc2]
                · unfold utf8Step
                  rw [if_neg h1, if_neg h2, if_neg h3, if_neg h4, if_pos h5,
                    if_neg (show ¬(rest ++ inc).length < 1 by
                      simp only [List.length_append]; omega),
                    List.getD_append _ _ _ _ (by omega), if_neg hc0,
                    if_neg (show ¬(rest ++ inc).length < 2 by
                      simp only [List.length_append]; omega),
                    List.getD_append _ _ _ _ (by omega), if_neg hc1,
                    if_neg (show ¬(rest ++ inc).length < 3 by
                      simp only [List.length_append]; omega),
                    List.getD_append _ _ _ _ (by omega), if_neg hc2]
  · refine Or.inr ⟨0xFFFD, 1, ?_, by omega, by omega, fun inc => ?_⟩
    · unfold utf8Step
      rw [if_neg h1, if_neg h2, if_neg h3, if_neg h4, if_neg h5]
    · unfold utf8Step
      rw [if_neg h1, if_neg h2, if_neg h3, if_neg h4, if_neg h5]

/-- A decoding step stops only at the start of a trailing incomplete
multi-byte sequence. -/
theorem utf8Step_stop (b : Nat) (rest : List Nat) (h : utf8Step b rest = .stop) :
    isIncompleteTail (b :: rest) = true := by
  rcases utf8Step_main b rest with ⟨_, ht⟩ | ⟨cp, k, he, _⟩
  · exact ht
  · rw [h] at he
    exact StepR.noConfusion he

/-- A decoding step that emits consumes at least one byte, never more bytes
than are present, and is unaffected by bytes appended after the window. -/
theorem utf8Step_emit (b : Nat) (rest : List Nat) (cp k : Nat)
    (h : utf8Step b rest = .emit cp k) :
    1 ≤ k ∧ k ≤ 1 + rest.length ∧ ∀ inc : List Nat, utf8Step b (rest ++ inc) = .emit cp k := by
  rcases utf8Step_main b rest with ⟨hs, _⟩ | ⟨cp2, k2, he, hk1, hk2, hinc⟩
  · rw [h] at hs
    exact StepR.noConfusion hs
  · have hck : cp2 = cp ∧ k2 = k := by
      rw [h] at he
      exact ⟨(StepR.emit.injEq _ _ _ _ ▸ he).1.symm, (StepR.emit.injEq _ _ _ _ ▸ he).2.symm⟩
    obtain ⟨rfl, rfl⟩ := hck
    exact ⟨hk1, hk2, hinc⟩

/-- The decoder never consumes more bytes than the window holds, and the
bytes it withholds are exactly a trailing incomplete multi-byte sequence. -/
theorem utf8Run_tail : ∀ (fuel : Nat) (bs : List Nat), bs.length ≤ fuel →
    (utf8Run fuel bs).2 ≤ bs.length ∧
    isIncompleteTail (bs.drop (utf8Run fuel bs).2) = true := by
  intro fuel
  induction fuel with
  | zero =>
    intro bs h
    obtain rfl : bs = [] := List.eq_nil_of_length_eq_zero (Nat.le_zero.mp h)
    exact ⟨Nat.le_refl _, rfl⟩
  | succ f ih =>
    intro bs h
    cases bs with
    | nil => exact ⟨Nat.le_refl _, rfl⟩
    | cons b rest =>
      cases hstep : utf8Step b rest with
      | stop =>
        have h2 := utf8Step_stop b rest hstep
        simp only [utf8Run, hstep]
        exact ⟨Nat.zero_le _, by simpa using h2⟩
      | emit cp k =>
        obtain ⟨hk1, hk2, _⟩ := utf8Step_emit b rest cp k hstep
        have hlen : ((b :: rest).drop k).length ≤ f := by
          simp only [List.length_drop, List.length_cons]
          simp only [List.length_cons] at h
          omega
        obtain ⟨ih1, ih2⟩ := ih ((b :: rest).drop k) hlen
        simp only [utf8Run, hstep]
        constructor
        · simp only [List.length_cons]
          simp only [List.length_drop, List.length_cons] at ih1
          omega
        · rw [List.drop_drop, Nat.add_comm] at ih2
          exact ih2

/-- Conversely, a decoding step presented with exactly an incomplete
multi-byte fragment stops. -/
theorem utf8Step_of_incomplete (b : Nat) (rest : List Nat)
    (h : isIncompleteTail (b :: rest) = true) : utf8Step b rest = .stop := by
  rcases rest with _ | ⟨c1, _ | ⟨c2, _ | ⟨c3, t⟩⟩⟩
  · simp only [isIncompleteTail, decide_eq_true_eq] at h
    unfold utf8Step
    rw [if_neg (show ¬b < 0x80 by omega), if_neg (show ¬b < 0xC0 by omega)]
    by_cases h3 : b < 0xE0
    · rw [if_pos h3, if_pos (show ([] : List Nat).length < 1 by decide)]
    · rw [if_neg h3]
      by_cases h4 : b < 0xF0
      · rw [if_pos h4, if_pos (show ([] : List Nat).length < 1 by decide)]
      · rw [if_neg h4, if_pos (show b < 0xF8 by omega),
          if_pos (show ([] : List Nat).length < 1 by decide)]
  · simp only [isIncompleteTail, Bool.and_eq_true, decide_eq_true_eq] at h
    obtain ⟨⟨hb1, hb2⟩, hc⟩ := h
    unfold utf8Step
    rw [if_neg (show ¬b < 0x80 by omega), if_neg (show ¬b < 0xC0 by omega),
      if_neg (show ¬b < 0xE0 by omega)]
    by_cases h4 : b < 0xF0
    · rw [if_pos h4, if_neg (show ¬([c1] : List Nat).length < 1 by simp),
        if_neg (show ¬isCont ([c1].getD 0 0) = false by simp [hc]),
        if_pos (show ([c1] : List Nat).length < 2 by simp)]
    · rw [if_neg h4, if_pos (show b < 0xF8 by omega),
        if_neg (show ¬([c1] : List Nat).length < 1 by simp),
        if_neg (show ¬isCont ([c1].getD 0 0) = false by simp [hc]),
        if_pos (show ([c1] : List Nat).length < 2 by simp)]
  · simp only [isIncompleteTail, Bool.and_eq_true, decide_eq_true_eq] at h
    obtain ⟨⟨⟨hb1, hb2⟩, hc1⟩, hc2⟩ := h
    unfold utf8Step
    rw [if_neg (show ¬b < 0x80 by omega), if_neg (show ¬b < 0xC0 by omega),
      if_neg (show ¬b < 0xE0 by omega), if_neg (show ¬b < 0xF0 by omega),
      if_pos (show b < 0xF8 by omega),
      if_neg (show ¬([c1, c2] : List Nat).length < 1 by simp),
      if_neg (show ¬isCont ([c1, c2].getD 0 0) = false by simp [hc1]),
      if_neg (show ¬([c1, c2] : List Nat).length < 2 by simp),
      if_neg (show ¬isCont ([c1, c2].getD 1 0) = false by simp [hc2]),
      if_pos (show ([c1, c2] : List Nat).length < 3 by simp)]
  · exact absurd h (by simp [isIncompleteTail])

/-- The decoder consumes nothing from a window that is exactly an
incomplete multi-byte fragment. -/
theorem utf8Run_incomplete (fuel : Nat) (inc : List Nat)
    (h : isIncompleteTail inc = true) : utf8Run fuel inc = ([], 0) := by
  cases fuel with
  | zero => rfl
  | succ f =>
    cases inc with
    | nil => rfl
    | cons b rest =>
      simp only [utf8Run, utf8Step_of_incomplete b rest h]

/-- A trailing incomplete fragment appended to a fully-consumed window is
withheld: the decoded text is unchanged and the fragment stays unconsumed. -/
theorem utf8Run_append (inc : List Nat) (hinc : isIncompleteTail inc = true) :
    ∀ (f : Nat), ∀ (fuel' : Nat) (cs : List Nat), cs.length ≤ f → cs.length ≤ fuel' →
      (utf8Run f cs).2 = cs.length →
      utf8Run fuel' (cs ++ inc) = ((utf8Run f cs).1, cs.length) := by
  intro f
  induction f with
  | zero =>
    intro fuel' cs h1 h2 h3
    obtain rfl : cs = [] := List.eq_nil_of_length_eq_zero (Nat.le_zero.mp h1)
    simp only [List.nil_append, List.length_nil]
    rw [utf8Run_incomplete fuel' inc hinc]
    rfl
  | succ f ih =>
    intro fuel' cs h1 h2 h3
    cases cs with
    | nil =>
      simp only [List.nil_append, List.length_nil]
      rw [utf8Run_incomplete fuel' inc hinc]
      rfl
    | cons b rest =>
      obtain ⟨g, rfl⟩ : ∃ g, fuel' = g + 1 := by
        simp only [List.length_cons] at h2
        exact ⟨fuel' - 1, by omega⟩
      cases hstep : utf8Step b rest with
      | stop =>
        exfalso
        simp only [utf8Run, hstep, List.length_cons] at h3
        omega
      | emit cp k =>
        obtain ⟨hk1, hk2, hstable⟩ := utf8Step_emit b rest cp k hstep
        have hp := (utf8Run_tail f ((b :: rest).drop k) (by
          simp only [List.length_drop, List.length_cons]
          simp only [List.length_cons] at h1
          omega)).1
        simp only [utf8Run, hstep, List.length_cons] at h3
        have hfull : (utf8Run f ((b :: rest).drop k)).2 = ((b :: rest).drop k).length := by
          simp only [List.length_drop, List.length_cons]
          simp only [List.length_drop, List.length_cons] at hp
          omega
        have hstep2 : utf8Step b (rest ++ inc) = .emit cp k := hstable inc
        have hdrop : (b :: (rest ++ inc)).drop k = ((b :: rest).drop k) ++ inc := by
          have : (b :: (rest ++ inc)) = (b :: rest) ++ inc := by simp
          rw [this]
          exact List.drop_append_of_le_length (by simp only [List.length_cons]; omega)
        have hih := ih g ((b :: rest).drop k) (by
            simp only [List.length_drop, List.length_cons]
            simp only [List.length_cons] at h1
            omega) (by
            simp only [List.length_drop, List.length_cons]
            simp only [List.length_cons] at h2
            omega) hfull
        simp only [List.cons_append, List.append_eq, utf8Run, hstep, hstep2,
          List.length_cons]
        rw [hdrop, hih]
        refine Prod.ext rfl ?_
        simp only [List.length_drop, List.length_cons]
        omega

/-! ### Claim theorems -/

/-- C1.  For every buffer state and the utf8 text encoding, `peek(n)`
decodes exactly the first `min(n, length)` stored bytes; the decoder
consumes only up to the last complete character boundary of that window
(never more bytes than presented, and the withheld suffix is precisely a
trailing incomplete multi-byte fragment, which a complete window ignores
without consuming); `peek` is a pure function of the state, consuming
nothing.  Concretely, after writing a 3-byte character and a 2-byte
character into a 5-byte buffer, `peek(1)` and `peek(2)` return empty text,
`peek(3)` the first character, and `peek(5)` both characters. -/
theorem peek_text_last_complete_boundary :
    (∀ (s : CB) (n : Nat), s.WF →
      s.peekCore (some n) .utf8 = .str (utf8ToUnits (s.content.take (min n s.len)))) ∧
    (∀ bs : List Nat,
      (utf8DC bs).2 ≤ bs.length ∧ isIncompleteTail (bs.drop (utf8DC bs).2) = true) ∧
    (∀ cs inc : List Nat, (utf8DC cs).2 = cs.length → isIncompleteTail inc = true →
      utf8DC (cs ++ inc) = ((utf8DC cs).1, cs.length)) ∧
    (mbState.peekArgs (.num 1) .undef = .str [] ∧
     mbState.peekArgs (.num 2) .undef = .str [] ∧
     mbState.peekArgs (.num 3) .undef = .str [0x20AC] ∧
     mbState.peekArgs (.num 5) .undef = .str [0x20AC, 0xA2] ∧
     mbState.len = 5 ∧ mbState.size = 5) := by
  refine ⟨?_, ?_, ?_, ?_⟩
  · intro s n hwf
    simp only [CB.peekCore]
    rw [s.peekData_eq_take hwf.1 hwf.2 (min n s.len) (Nat.min_le_right n s.len)]
  · intro bs
    exact utf8Run_tail bs.length bs (Nat.le_refl _)
  · intro cs inc h1 h2
    unfold utf8DC at h1 ⊢
    rw [utf8Run_append inc h2 cs.length (cs ++ inc).length cs (Nat.le_refl _)
      (by simp only [List.length_append]; omega) h1]
  · exact ⟨by decide, by decide, by decide, by decide, by decide, by decide⟩

/-- Witness for C1 at a concrete well-formed state. -/
theorem peek_text_last_complete_boundary_witness :
    CB.WF mbState ∧
    mbState.peekCore (some 3) .utf8 =
      .str (utf8ToUnits (mbState.content.take (min 3 mbState.len))) :=
  ⟨by decide, peek_text_last_complete_boundary.1 mbState 3 (by decide)⟩

/-- C2 (code bug).  `read(3, utf8)` on the euro-cent buffer returns the
euro sign, whose encoded byte length is 3, yet advances `head` by only 1
(the JS string length of the returned text) and decreases `length` by 1
instead of 3: `head += data.length` (src/index.js line 175) counts UTF-16
code units, not consumed bytes. -/
theorem read_advances_head_by_string_length_bug :
    (mbState.readCore (some 3) .utf8).1 = .str [0x20AC] ∧
    (chunkBytes (.str [0x20AC])).length = 3 ∧
    mbState.head = 0 ∧ mbState.len = 5 ∧
    (mbState.readCore (some 3) .utf8).2.head = 1 ∧
    (mbState.readCore (some 3) .utf8).2.len = 4 := by
  refine ⟨by decide, by decide, by decide, by decide, by decide, by decide⟩

/-- C3 (code bug).  A wrapped state reached through the public interface
(content `"efghi"`, `head = 4`, `tail = 2`) is mis-copied: the wrapped
branch of `copy` uses `head - tail` (the free space) as the first
sub-copy length, so `copy` returns 5 but writes `[e f h i ?]`, dropping
the byte `g` and leaving the last target byte untouched, instead of the
logical bytes `[e f g h i]`. -/
theorem copy_wrapped_range_bug :
    c3State.tail < c3State.head ∧
    c3State.len = 5 ∧
    c3State.content = [101, 102, 103, 104, 105] ∧
    c3State.copyA (List.replicate 5 0) .undef .undef .undef = ([101, 102, 104, 105, 0], 5) ∧
    (c3State.copyA (List.replicate 5 0) .undef .undef .undef).1 ≠ c3State.content := by
  refine ⟨by decide, by decide, by decide, by decide, by decide⟩

/-- C4 (code bug).  `slice(3)` on the euro-cent buffer observably mutates
the state: `slice` restores the read position with
`writeBack(read(start, encoding))`, but `read` under-consumes by the
string-length bug and `writeBack` re-encodes the 1-unit string back to 3
bytes, so `length` jumps from 5 to 8 and the storage is reallocated
(`size` 5 to 10). -/
theorem slice_mutates_state_bug :
    mbState.len = 5 ∧ mbState.size = 5 ∧
    (mbState.sliceArgs (.int 3) .undef .undef).map (fun p => p.2.len) = some 8 ∧
    (mbState.sliceArgs (.int 3) .undef .undef).map (fun p => p.2.size) = some 10 := by
  refine ⟨by decide, by decide, by decide, by decide⟩

/-- C5 (code bug).  The repository's own read-then-expand sequence
(size-2 raw buffer: write 2 bytes, read 1, write 2 more) ends with
`length = 4` and content `[2, 0, 3, 4]`, but total bytes written minus
bytes consumed is `(2 + 2) - 1 = 3` and the surviving bytes should be
`[2, 3, 4]`: `setBuffer` recomputes `tail` from the already-updated
buffer and head, keeping the stale raw `tail` and injecting a garbage
byte. -/
theorem length_accounting_bug :
    (((CB.new 2 .raw).write (.buf [1, 2])).map
      (fun s => (s.readCore (some 1) .raw).1)) = some (.buf [1]) ∧
    c5Final.map CB.len = some 4 ∧
    c5Final.map CB.content = some [2, 0, 3, 4] ∧
    (2 + 2) - 1 = 3 := by
  refine ⟨by decide, by decide, by decide, by decide⟩

/-- C6 (code bug).  `expand()` on a state with `head = 3` (content
`"def"`, 3 bytes) doubles `size` from 6 to 12 and realigns to offset 0,
but leaves `tail` at its old raw value 6 instead of `length`, so the
stored content becomes `"def\0\0\0"` (length 6): the copied bytes are
followed by three garbage zero bytes rather than being preserved
exactly. -/
theorem expand_corrupts_content_bug :
    c6State.head = 3 ∧ c6State.tail = 6 ∧ c6State.len = 3 ∧
    c6State.content = [100, 101, 102] ∧
    c6State.expand.size = 12 ∧ c6State.expand.head = 0 ∧
    c6State.expand.tail = 6 ∧ c6State.expand.len = 6 ∧
    c6State.expand.content = [100, 101, 102, 0, 0, 0] := by
  refine ⟨by decide, by decide, by decide, by decide, by decide, by decide, by decide,
    by decide, by decide⟩

/-- C7 (code bug).  `shrink()` computes the right capacity (the spec's
base-5 doubling scenario does shrink 20 to 15 with content preserved,
because there `head = 0`), but on a state with `head = 1` (content
`"bc"`, 2 bytes) the same stale-`tail` slip in `setBuffer` leaves
`length = 3` and content `"bc\0"` instead of preserving the stored
bytes. -/
theorem shrink_corrupts_content_bug :
    (c7Big.len = 11 ∧ c7Big.size = 20 ∧ c7Big.shrink.size = 15 ∧
      c7Big.shrink.content = c7Big.content) ∧
    (c7State.len = 2 ∧ c7State.content = [98, 99] ∧
      c7State.shrink.size = 5 ∧ c7State.shrink.len = 3 ∧
      c7State.shrink.content = [98, 99, 0]) := by
  exact ⟨⟨by decide, by decide, by decide, by decide⟩,
    ⟨by decide, by decide, by decide, by decide, by decide⟩⟩

/-- C8 counterexample.  `copy` into a 5-byte target from an 11-byte
content raises no error: it completes, silently truncating the copy to
the first 5 bytes (`"hello"`) while still returning 11. -/
theorem copy_small_target_no_error_counterexample :
    hwState.len = 11 ∧
    hwState.copyA (List.replicate 5 0) .undef .undef .undef =
      ([104, 101, 108, 108, 111], 11) := by
  refine ⟨by decide, by decide⟩

/-- C8 amended.  For every non-wrapped well-formed state and target too
small for the stored content, `copy` (with defaulted indices) silently
clamps: it fills the whole target with the first bytes of the content and
still returns `length`, the byte count requested, with the buffer state
untouched (`copy` never writes the buffer's own fields). -/
theorem copy_small_target_truncates (s : CB) (target : List Nat)
    (hwf : s.WF) (hnw : s.head ≤ s.tail) (hsmall : target.length < s.len) :
    s.copyA target .undef .undef .undef = (s.content.take target.length, (s.len : Int)) := by
  obtain ⟨hh, ht⟩ := hwf
  have hlen : s.len = s.tail - s.head := by
    simp [CB.len, Nat.not_lt.mpr hnw]
  simp only [CB.copyA, CB.defIdx]
  rw [if_neg (by omega)]
  rw [if_neg (Nat.not_lt.mpr hnw)]
  have hstart : (s.head + 0) % s.storage.length = s.head := by
    rw [Nat.add_zero]
    exact Nat.mod_eq_of_lt hh
  have hend : (s.head + s.len) % s.storage.length = s.tail := by
    rw [hlen, Nat.add_sub_cancel' hnw]
    exact Nat.mod_eq_of_lt ht
  rw [hstart, hend]
  refine Prod.ext ?_ ?_
  · simp only [bufCopy]
    have hmin1 : min s.tail s.storage.length = s.tail := Nat.min_eq_left (Nat.le_of_lt ht)
    have hmin2 : min (s.tail - s.head) (target.length - 0) = target.length := by
      rw [Nat.sub_zero]
      exact Nat.min_eq_right (by omega)
    rw [hmin1, hmin2]
    have hctake : s.content.take target.length = (List.range target.length).map s.byteAt := by
      rw [CB.content, ← List.map_take, List.take_range, Nat.min_eq_left (by omega)]
    rw [hctake]
    apply List.map_congr_left
    intro i hi
    rw [List.mem_range] at hi
    rw [if_pos ⟨Nat.zero_le i, by omega⟩]
    rw [CB.byteAt, Nat.sub_zero, Nat.mod_eq_of_lt (by omega)]
  · simp only
    omega

/-- Witness for C8's amended theorem at the concrete hello-world state. -/
theorem copy_small_target_truncates_witness :
    (CB.WF hwState ∧ hwState.head ≤ hwState.tail ∧
      (List.replicate 5 0 : List Nat).length < hwState.len) ∧
    hwState.copyA (List.replicate 5 0) .undef .undef .undef =
      (hwState.content.take (List.replicate 5 0 : List Nat).length, (hwState.len : Int)) :=
  ⟨⟨by decide, by decide, by decide⟩,
    copy_small_target_truncates hwState (List.replicate 5 0) (by decide) (by decide) (by decide)⟩

theorem CB.defIdx_undef (s : CB) (d : Nat) : s.defIdx .undef d = d := rfl

/-- C9.  Every numeric index argument of `copy`/`slice` that is not a
finite number, or negative, or not less than `length`, is silently
replaced by its default (starts by 0, ends by `length`): the call behaves
exactly as if the argument had been omitted, and since every operation
here is a total function, no error is raised. -/
theorem numeric_args_defaulted (s : CB) (target : List Nat) (b c : JArg) (e : EArg)
    (a : JArg) (ha : s.numBad a) :
    s.copyA target a b c = s.copyA target .undef b c ∧
    s.copyA target b a c = s.copyA target b .undef c ∧
    s.copyA target b c a = s.copyA target b c .undef ∧
    s.sliceArgs a b e = s.sliceArgs .undef b e ∧
    s.sliceArgs b a e = s.sliceArgs b .undef e := by
  have hd : ∀ d, s.defIdx a d = d := by
    intro d
    cases a with
    | nan => rfl
    | posInf => rfl
    | negInf => rfl
    | int z =>
      simp only [CB.numBad] at ha
      simp only [CB.defIdx]
      rw [if_neg (by omega)]
    | undef => exact absurd ha (by simp [CB.numBad])
    | null => exact absurd ha (by simp [CB.numBad])
    | str e' => exact absurd ha (by simp [CB.numBad])
  refine ⟨?_, ?_, ?_, ?_, ?_⟩
  · simp only [CB.copyA, hd, CB.defIdx_undef]
  · simp only [CB.copyA, hd, CB.defIdx_undef]
  · simp only [CB.copyA, hd, CB.defIdx_undef]
  · cases a with
    | undef => exact absurd ha (by simp [CB.numBad])
    | null => exact absurd ha (by simp [CB.numBad])
    | str e' => exact absurd ha (by simp [CB.numBad])
    | nan => cases b <;> simp only [CB.sliceArgs, hd, CB.defIdx_undef]
    | posInf => cases b <;> simp only [CB.sliceArgs, hd, CB.defIdx_undef]
    | negInf => cases b <;> simp only [CB.sliceArgs, hd, CB.defIdx_undef]
    | int z => cases b <;> simp only [CB.sliceArgs, hd, CB.defIdx_undef]
  · cases a with
    | undef => exact absurd ha (by simp [CB.numBad])
    | null => exact absurd ha (by simp [CB.numBad])
    | str e' => exact absurd ha (by simp [CB.numBad])
    | nan => cases b <;> simp only [CB.sliceArgs, hd, CB.defIdx_undef]
    | posInf => cases b <;> simp only [CB.sliceArgs, hd, CB.defIdx_undef]
    | negInf => cases b <;> simp only [CB.sliceArgs, hd, CB.defIdx_undef]
    | int z => cases b <;> simp only [CB.sliceArgs, hd, CB.defIdx_undef]

/-- Witness for C9 with the invalid argument `NaN` on the hello-world
state. -/
theorem numeric_args_defaulted_witness :
    hwState.numBad .nan ∧
    hwState.copyA (List.replicate 5 0) .nan .undef .undef =
      hwState.copyA (List.replicate 5 0) .undef .undef .undef :=
  ⟨trivial, (numeric_args_defaulted hwState (List.replicate 5 0) .undef .undef .undef
    .nan trivial).1⟩

/-- C10.  A string first argument to `peek`/`slice` is treated as the
encoding with the numeric parameters defaulted: for every state and every
recognized encoding name, `peek(e)` equals `peek(undefined, e)` and also
equals the peek of all available bytes under that encoding, and
`slice(e)` equals the slice over the whole content with encoding `e`. -/
theorem string_first_arg_is_encoding (s : CB) (e : EncName) :
    s.peekArgs (.str e) .undef = s.peekArgs .undef (.name e) ∧
    s.peekArgs (.str e) .undef = s.peekCore none (s.resolveEnc (.name e)) ∧
    s.sliceArgs (.str e) .undef .undef = s.sliceArgs .undef .undef (.name e) := by
  exact ⟨rfl, rfl, rfl⟩

end CircularBuffer
